import Mathlib

/-!
Shallow embedding of the ICU CollationDataBuilder (collationdatabuilder.h).
The repository snapshot contains only the class header; the implementation
file is not part of the sources, so the operation bodies below are modelled
from the specification, with the header's doc comments kept authoritative
where they describe behavior.  Machine integers are modelled as Nat; the
20-bit index limit of index-bearing CE32s is kept explicit.
-/

namespace ICU

/-- Modelled from the spec: a collation element is a 64-bit opaque sort
weight; the primary weight occupies the upper 32 bits and the
secondary/tertiary/quaternary fields the lower 32 bits. -/
abbrev CE := Nat

/-- Modelled from the spec: the common-case secondary/tertiary pattern of a
CE whose non-primary fields allow the long-primary fast path (zero
quaternary, common secondary/tertiary). -/
def commonSecAndTer : Nat := 0x05000500

/-- Modelled from the spec: the low 20 bits of an index-bearing CE32 are the
arena index; indices must never exceed 0xFFFFF. -/
def maxIndex : Nat := 0xFFFFF

/-- Modelled from the spec: the CE32 tagged union.  Tags: long-primary
(fast path), expansion (index into the 64-bit CE store plus a length),
expansion32 (index into the CE32 store plus a length), contraction (index
into the conditional chain store), offset-range (start code point, base
primary and per-code-point step for compressed linear ranges), and
fallback (explicitly unassigned / inherits from a base collation). -/
inductive CE32 where
  | longPrimary (p : Nat)
  | expansion (index : Nat) (len : Nat)
  | expansion32 (index : Nat) (len : Nat)
  | contraction (index : Nat)
  | offsetRange (start : Nat) (primary : Nat) (step : Nat)
  | fallback
  deriving DecidableEq

/-- Modelled from the spec: the error kinds of the builder (ICU error
codes); every operation reports them synchronously. -/
inductive BuilderError where
  | invalidArgument
  | indexOverflow
  | invalidState
  | allocationFailure
  | bufferOverflow
  deriving DecidableEq

/-- Modelled from the spec: one node of a code point's context chain:
context (prefix string `pre` preceding the anchor and contraction suffix
`suf` following it, both empty on the chain's default node), the resulting
CE32, and the link to the next node in the chain. -/
structure ConditionalCE32 where
  pre : List Nat
  suf : List Nat
  ce32 : CE32
  next : Option Nat
  deriving DecidableEq

/-- Modelled from the spec: the builder state.  `trie` is the primary
code-point-indexed mapping (association list, first match wins), `ce32s`
and `ce64s` the expansion stores, `conditionalCE32s` the conditional chain
arena, `backwardSet` the unsafe-backward set (named unsafeBackwardSet in
the header), `contexts` the serialized context table, `modified` the
has-mappings flag, and `frozen` whether build() has frozen the trie. -/
structure Builder where
  trie : List (Nat × CE32)
  ce32s : List CE32
  ce64s : List CE
  conditionalCE32s : List ConditionalCE32
  contextChars : List Nat
  backwardSet : List Nat
  contexts : List Nat
  modified : Bool
  frozen : Bool
  deriving DecidableEq

/-- Modelled from the spec: a freshly constructed builder is empty. -/
def emptyBuilder : Builder :=
  { trie := [], ce32s := [], ce64s := [], conditionalCE32s := []
    contextChars := [], backwardSet := [], contexts := []
    modified := false, frozen := false }

/-- Modelled from the spec: the immutable result packaged by build(). -/
structure CollationData where
  trie : List (Nat × CE32)
  ce32s : List CE32
  ce64s : List CE
  contexts : List Nat
  deriving DecidableEq

/-- Trie lookup: the first entry for code point c, else the fallback
(unassigned) CE32. -/
def trieGetD (t : List (Nat × CE32)) (c : Nat) : CE32 :=
  match t with
  | [] => .fallback
  | e :: rest => if e.1 = c then e.2 else trieGetD rest c

/-- Trie update: a new first entry for code point c shadows older ones. -/
def trieSet (t : List (Nat × CE32)) (c : Nat) (v : CE32) : List (Nat × CE32) :=
  (c, v) :: t

/-- The list of n consecutive code points starting at `start`. -/
def cpList (start : Nat) : Nat → List Nat
  | 0 => []
  | n + 1 => start :: cpList (start + 1) n

/-- Decode one non-special CE32 back to a 64-bit CE (inverse of
encodeOneCEAsCE32 on its range). -/
def decodeOneCE32 : CE32 → CE
  | .longPrimary p => p * 2 ^ 32 + commonSecAndTer
  | _ => 0

/-- Modelled from the spec: encodeOneCEAsCE32 returns a long-primary CE32
when the CE's non-primary fields match the common-case pattern and the
primary is a three-byte primary, else signals that an expansion is
needed. -/
def encodeOneCEAsCE32 (ce : CE) : Option CE32 :=
  if ce % 2 ^ 32 = commonSecAndTer ∧ ce / 2 ^ 32 % 256 = 0 then
    some (.longPrimary (ce / 2 ^ 32))
  else
    none

/-- Encode every CE of a list as a simple CE32, or fail if any needs an
expansion. -/
def encodeAll : List CE → Option (List CE32)
  | [] => some []
  | ce :: rest =>
    match encodeOneCEAsCE32 ce, encodeAll rest with
    | some c, some l => some (c :: l)
    | _, _ => none

/-- Modelled from the spec: the deduplication scan of an expansion store.
It returns an index at which the sequence already occurs, considering only
indices within the 20-bit addressable range (the invariant that stored
indices never exceed maxIndex), preferring the highest such index. -/
def findSeq {α : Type} [DecidableEq α] (store seq : List α) : Option Nat :=
  if seq.length ≤ store.length then
    ((List.range (min (store.length - seq.length) maxIndex + 1)).filter
      (fun i => decide ((store.drop i).take seq.length = seq))).getLast?
  else
    none

/-- Modelled from the spec: encodeExpansion stores a list of 64-bit CEs,
reusing an existing identical sequence's index when the scan finds one,
and fails with IndexOverflow when appending would need an index beyond the
20-bit space. -/
def encodeExpansion (ces : List CE) (b : Builder) : Except BuilderError (CE32 × Builder) :=
  match findSeq b.ce64s ces with
  | some i => .ok (.expansion i ces.length, b)
  | none =>
    if b.ce64s.length ≤ maxIndex then
      .ok (.expansion b.ce64s.length ces.length, { b with ce64s := b.ce64s ++ ces })
    else
      .error .indexOverflow

/-- Modelled from the spec: encodeExpansion32 is encodeExpansion for lists
of CE32s, stored in the CE32 store. -/
def encodeExpansion32 (newCE32s : List CE32) (b : Builder) : Except BuilderError (CE32 × Builder) :=
  match findSeq b.ce32s newCE32s with
  | some i => .ok (.expansion32 i newCE32s.length, b)
  | none =>
    if b.ce32s.length ≤ maxIndex then
      .ok (.expansion32 b.ce32s.length newCE32s.length, { b with ce32s := b.ce32s ++ newCE32s })
    else
      .error .indexOverflow

/-- Modelled from the spec: encodeCEs turns a CE list into its most compact
CE32: a single common-pattern CE encodes directly; a single other CE falls
back to a one-entry expansion (encodeOneCE); a list whose every element
has a simple CE32 form becomes an expansion32; anything else becomes a
64-bit expansion. -/
def encodeCEs (ces : List CE) (b : Builder) : Except BuilderError (CE32 × Builder) :=
  match ces with
  | [ce] =>
    match encodeOneCEAsCE32 ce with
    | some c => .ok (c, b)
    | none => encodeExpansion [ce] b
  | _ =>
    match encodeAll ces with
    | some l => encodeExpansion32 l b
    | none => encodeExpansion ces b

/-- Decode a CE32 into the CE list it denotes, resolving expansion
indirection through the builder's stores.  Context-bearing and unassigned
CE32s denote no CE list of their own. -/
def decodeCE32 (b : Builder) : CE32 → List CE
  | .longPrimary p => [p * 2 ^ 32 + commonSecAndTer]
  | .expansion i n => (b.ce64s.drop i).take n
  | .expansion32 i n => ((b.ce32s.drop i).take n).map decodeOneCE32
  | .contraction _ => []
  | .offsetRange _ _ _ => []
  | .fallback => []

/-- Modelled from the spec: addConditionalCE32 appends a new conditional
node to the chain arena and returns its index; the operation is a hard
error (IndexOverflow) when the new index would not fit into the low 20
bits of a CE32. -/
def addConditionalCE32 (pre suf : List Nat) (c32 : CE32) (b : Builder) :
    Except BuilderError (Nat × Builder) :=
  if b.conditionalCE32s.length ≤ maxIndex then
    .ok (b.conditionalCE32s.length,
      { b with conditionalCE32s :=
          b.conditionalCE32s ++ [{ pre := pre, suf := suf, ce32 := c32, next := none }] })
  else
    .error .indexOverflow

/-- Replace the CE32 carried by the arena node at index i. -/
def setCondCE32 (arena : List ConditionalCE32) (i : Nat) (c : CE32) : List ConditionalCE32 :=
  match arena[i]? with
  | some n => arena.set i { n with ce32 := c }
  | none => arena

/-- Set the next-link of the arena node at index i. -/
def setCondNext (arena : List ConditionalCE32) (i j : Nat) : List ConditionalCE32 :=
  match arena[i]? with
  | some n => arena.set i { n with next := some j }
  | none => arena

/-- Walk a chain from index i looking for the node with context (p, s);
returns the found index (or none) together with the last visited index.
The fuel bounds the walk by the arena size. -/
def chainFindAux (arena : List ConditionalCE32) (p s : List Nat) :
    Nat → Nat → Option Nat × Nat
  | 0, i => (none, i)
  | fuel + 1, i =>
    match arena[i]? with
    | none => (none, i)
    | some n =>
      if p = n.pre ∧ s = n.suf then (some i, i)
      else
        match n.next with
        | none => (none, i)
        | some j => chainFindAux arena p s fuel j

/-- The nodes of the chain starting at arena index i, head first.  The fuel
bounds the walk by the arena size. -/
def chainListAux (arena : List ConditionalCE32) : Nat → Nat → List ConditionalCE32
  | 0, _ => []
  | fuel + 1, i =>
    match arena[i]? with
    | none => []
    | some n =>
      n :: (match n.next with
            | none => []
            | some j => chainListAux arena fuel j)

/-- The chain of conditional nodes anchored at arena index i. -/
def chainList (b : Builder) (i : Nat) : List ConditionalCE32 :=
  chainListAux b.conditionalCE32s b.conditionalCE32s.length i

/-- Modelled from the header's isContractionCE32 (line 151) combined with
getConditionalCE32ForCE32 (lines 163-165): the chain-arena index carried
by a builder context CE32, or none for any other tag. -/
def contractionIndexOf : CE32 → Option Nat
  | .contraction i => some i
  | _ => none

/-- Modelled from the spec: insert a contextual mapping into an existing
chain: replace the node with an identical (prefix, suffix) context if one
exists, otherwise append a new node at the chain's tail (insertion order
from the head); record the context characters and set the modified
flag. -/
def addToChain (p : List Nat) (anchor : Nat) (s : List Nat) (c32 : CE32) (idx : Nat)
    (b : Builder) : Except BuilderError Builder :=
  match chainFindAux b.conditionalCE32s p s b.conditionalCE32s.length idx with
  | (some j, _) =>
    .ok { b with conditionalCE32s := setCondCE32 b.conditionalCE32s j c32
                 contextChars := anchor :: p ++ s ++ b.contextChars
                 backwardSet := p ++ s ++ b.backwardSet
                 modified := true }
  | (none, last) =>
    match addConditionalCE32 p s c32 b with
    | .error e => .error e
    | .ok (newIdx, b1) =>
      .ok { b1 with conditionalCE32s := setCondNext b1.conditionalCE32s last newIdx
                    contextChars := anchor :: p ++ s ++ b1.contextChars
                    backwardSet := p ++ s ++ b1.backwardSet
                    modified := true }

/-- Modelled from the spec: the second half of chain creation: append the
new contextual node after the default node at index i0 and link them; the
trie slot is repointed at the chain head. -/
def newChainTail (p : List Nat) (anchor : Nat) (s : List Nat) (c32 : CE32) (i0 : Nat)
    (b1 : Builder) : Except BuilderError Builder :=
  match addConditionalCE32 p s c32 b1 with
  | .error e => .error e
  | .ok (i1, bf) =>
    .ok { bf with conditionalCE32s := setCondNext bf.conditionalCE32s i0 i1
                  trie := trieSet bf.trie anchor (.contraction i0)
                  contextChars := anchor :: p ++ s ++ bf.contextChars
                  backwardSet := p ++ s ++ bf.backwardSet
                  modified := true }

/-- Modelled from the spec: create the anchor's chain for its first
contextual mapping: the chain head is the default node carrying the
anchor's previous (possibly unassigned) CE32, followed by the new
contextual node; the trie slot is repointed at the chain. -/
def newChain (p : List Nat) (anchor : Nat) (s : List Nat) (c32 : CE32) (b : Builder) :
    Except BuilderError Builder :=
  match addConditionalCE32 [] [] (trieGetD b.trie anchor) b with
  | .error e => .error e
  | .ok (i0, b1) => newChainTail p anchor s c32 i0 b1

/-- Modelled from the spec: the contextual part of add(): find or create
the anchor's chain and insert the conditional node preserving the
longest-match order. -/
def addContextual (p : List Nat) (anchor : Nat) (s : List Nat) (c32 : CE32) (b : Builder) :
    Except BuilderError Builder :=
  match contractionIndexOf (trieGetD b.trie anchor) with
  | some idx => addToChain p anchor s c32 idx b
  | none => newChain p anchor s c32 b

/-- Modelled from the spec: add(prefix, s, ces).  Fails with InvalidState
after build(), with InvalidArgument on an empty mapping string; encodes
the CE list, then either writes the anchor's trie slot directly (no
context) or inserts into the anchor's conditional chain. -/
def add (p s : List Nat) (ces : List CE) (b : Builder) : Except BuilderError Builder :=
  if b.frozen then .error .invalidState
  else
    match s with
    | [] => .error .invalidArgument
    | anchor :: suffix =>
      match encodeCEs ces b with
      | .error e => .error e
      | .ok (c32, b1) =>
        if p = [] ∧ suffix = [] then
          .ok { b1 with trie := trieSet b1.trie anchor c32, modified := true }
        else
          addContextual p anchor suffix c32 b1

/-- Write the code points start..start+n-1 into the trie, giving code
point c the CE32 f c. -/
def writeRangeCE32 (t : List (Nat × CE32)) (start n : Nat) (f : Nat → CE32) :
    List (Nat × CE32) :=
  (cpList start n).map (fun c => (c, f c)) ++ t

/-- The offset-range form of a primary range: every code point of
start..last shares one offset-range CE32. -/
def writeOffsetRangeForm (t : List (Nat × CE32)) (start last primary step : Nat) :
    List (Nat × CE32) :=
  writeRangeCE32 t start (last + 1 - start) (fun _ => .offsetRange start primary step)

/-- The per-code-point form of a primary range: each code point gets its
own long-primary CE32. -/
def writeDirectForm (t : List (Nat × CE32)) (start last primary step : Nat) :
    List (Nat × CE32) :=
  writeRangeCE32 t start (last + 1 - start)
    (fun c => .longPrimary (primary + (c - start) * step))

/-- Reading an offset-range CE32 at code point c reconstructs the
long-primary CE32 with primary(c) = base + (c - start) * step; any other
CE32 is returned unchanged (header line 155). -/
def getCE32FromOffsetCE32 (c : Nat) : CE32 → CE32
  | .offsetRange start primary step => .longPrimary (primary + (c - start) * step)
  | c32 => c32

/-- The primary weight the builder's trie gives to code point c (0 when c
has no simple primary). -/
def primaryAt (b : Builder) (c : Nat) : Nat :=
  match getCE32FromOffsetCE32 c (trieGetD b.trie c) with
  | .longPrimary p => p
  | _ => 0

/-- True when the trie value is not a complex mapping
(expansion/contraction), i.e. the code point is still range-compressible
(header lines 97-99). -/
def isSimpleOrUnassigned : CE32 → Bool
  | .longPrimary _ => true
  | .offsetRange _ _ _ => true
  | .fallback => true
  | _ => false

/-- Modelled from the spec: maybeSetPrimaryRange represents start..last as
one offset-range CE32 only when that is strictly cheaper than
last-start+1 direct entries after accounting for the one extra
indirection at lookup time (one shared stored CE32 plus one indirection,
i.e. cost 2); otherwise no change is made (header lines 96-97: sets the
range only if it is worth doing, otherwise no change).  Fails with
InvalidState after build().  Returns whether the offset-range form was
used. -/
def maybeSetPrimaryRange (start last primary step : Nat) (b : Builder) :
    Except BuilderError (Bool × Builder) :=
  if b.frozen then .error .invalidState
  else if 2 < last - start + 1 then
    .ok (true, { b with trie := writeOffsetRangeForm b.trie start last primary step
                        modified := true })
  else
    .ok (false, b)

/-- Modelled from the spec: setPrimaryRangeAndReturnNext always performs
the assignment, using the offset-range form when maybeSetPrimaryRange
finds it worth doing and writing each code point's long-primary CE32
individually otherwise, and returns primary + (last-start+1)*step. -/
def setPrimaryRangeAndReturnNext (start last primary step : Nat) (b : Builder) :
    Except BuilderError (Nat × Builder) :=
  match maybeSetPrimaryRange start last primary step b with
  | .error e => .error e
  | .ok (true, b1) => .ok (primary + (last - start + 1) * step, b1)
  | .ok (false, b1) =>
    .ok (primary + (last - start + 1) * step,
      { b1 with trie := writeDirectForm b1.trie start last primary step
                modified := true })

/-- Modelled from the spec: the CE modifier interface of copyFrom, a pair
of pure functions replacing stored CEs and simple CE32s. -/
structure CEModifier where
  modifyCE : CE → CE
  modifyCE32 : CE32 → CE32

/-- Modelled from the spec: copyFrom deep-copies all mappings from the
source builder into an empty, not-yet-built destination, applying the
modifier once per distinct stored CE and once per simple trie CE32; it
fails with InvalidState on a built or non-empty destination. -/
def copyFrom (src : Builder) (m : CEModifier) (dest : Builder) :
    Except BuilderError Builder :=
  if dest.frozen then .error .invalidState
  else if dest.modified then .error .invalidState
  else
    .ok { dest with
      trie := src.trie.map (fun e =>
        match e.2 with
        | .longPrimary p => (e.1, m.modifyCE32 (.longPrimary p))
        | c32 => (e.1, c32))
      ce32s := src.ce32s
      ce64s := src.ce64s.map m.modifyCE
      conditionalCE32s := src.conditionalCE32s
      contextChars := src.contextChars
      backwardSet := src.backwardSet
      modified := src.modified }

/-- Modelled from the spec: build() performs the one-shot context
compilation, packages the immutable CollationData and freezes the
builder; it is terminal, so calling it on a frozen builder fails with
InvalidState. -/
def build (b : Builder) : Except BuilderError (CollationData × Builder) :=
  if b.frozen then .error .invalidState
  else
    .ok ({ trie := b.trie, ce32s := b.ce32s, ce64s := b.ce64s, contexts := b.contexts },
         { b with frozen := true })

/-- Four little-endian base-256 digits of x (one serialized 32-bit
word). -/
def natBytes4 (x : Nat) : List Nat :=
  [x % 256, x / 256 % 256, x / 256 ^ 2 % 256, x / 256 ^ 3 % 256]

/-- Concatenate byte blocks. -/
def concatAll (ls : List (List Nat)) : List Nat :=
  ls.foldr (fun a r => a ++ r) []

/-- Deterministic byte encoding of one CE32 (tag byte plus payload
words). -/
def ce32Bytes : CE32 → List Nat
  | .longPrimary p => 0 :: natBytes4 p
  | .expansion i n => 1 :: (natBytes4 i ++ natBytes4 n)
  | .expansion32 i n => 2 :: (natBytes4 i ++ natBytes4 n)
  | .contraction i => 3 :: natBytes4 i
  | .offsetRange s p st => 4 :: (natBytes4 s ++ natBytes4 p ++ natBytes4 st)
  | .fallback => [5]

/-- Modelled from the spec: the deterministic, position-independent byte
layout of the serialized trie (entry count followed by each entry's code
point and CE32). -/
def serializedTrieBytes (b : Builder) : List Nat :=
  natBytes4 b.trie.length ++
    concatAll (b.trie.map (fun e => natBytes4 e.1 ++ ce32Bytes e.2))

/-- Modelled from the spec: the deterministic byte layout of the serialized
unsafe-backward set (element count followed by 16-bit units). -/
def serializedBackwardSetBytes (b : Builder) : List Nat :=
  natBytes4 b.backwardSet.length ++
    concatAll (b.backwardSet.map (fun c => [c % 256, c / 256 % 256]))

/-- Outcome of a serialization call: error kind (none on success), the
byte count required or written, and the target buffer after the call. -/
structure SerializeResult where
  status : Option BuilderError
  written : Nat
  buf : List Nat
  deriving DecidableEq

/-- Write the source bytes over the front of the target buffer, leaving
the rest of the buffer unchanged. -/
def writeBytes (dest src : List Nat) : List Nat :=
  src ++ dest.drop src.length

/-- Modelled from the spec: capacity-probe serialization.  If the target
buffer is smaller than the serialized size, fail with BufferOverflow,
report the required byte count and perform no partial writes; otherwise
write exactly that many bytes and return the count written. -/
def serializeBuffer (bytes buf : List Nat) : SerializeResult :=
  if bytes.length ≤ buf.length then
    { status := none, written := bytes.length, buf := writeBytes buf bytes }
  else
    { status := some .bufferOverflow, written := bytes.length, buf := buf }

/-- Modelled from the spec: serializeTrie with its capacity-probe
protocol; the capacity is the length of the target buffer. -/
def serializeTrie (b : Builder) (buf : List Nat) : SerializeResult :=
  serializeBuffer (serializedTrieBytes b) buf

/-- Modelled from the spec: serializeUnsafeBackwardSet with the same
capacity-probe protocol. -/
def serializeUnsafeBackwardSet (b : Builder) (buf : List Nat) : SerializeResult :=
  serializeBuffer (serializedBackwardSetBytes b) buf

/-- Resolve a context-bearing CE32 to its chain's default (empty-context)
CE32; other CE32s resolve to themselves. -/
def resolveDefaultCE32 (b : Builder) : CE32 → CE32
  | .contraction idx =>
    match chainList b idx with
    | d :: _ => d.ce32
    | [] => .fallback
  | c32 => c32

/-- The CE list code point c maps to in this builder (resolving a context
chain to its default and an offset range to its reconstructed primary). -/
def cesAt (b : Builder) (c : Nat) : List CE :=
  decodeCE32 b (getCE32FromOffsetCE32 c (resolveDefaultCE32 b (trieGetD b.trie c)))

/-- Modelled from the header (lines 79-83): the three-byte primary if c
maps to a single such CE and has no context data, otherwise 0, never an
error. -/
def getLongPrimaryIfSingleCE (b : Builder) (c : Nat) : Nat :=
  match trieGetD b.trie c with
  | .longPrimary p => p
  | _ => 0

/-- Modelled from the header (lines 85-89): the single CE for c; sets an
error code if c does not have a single CE. -/
def getSingleCE (b : Builder) (c : Nat) : Except BuilderError CE :=
  match cesAt b c with
  | [ce] => .ok ce
  | _ => .error .invalidArgument

/-- Does this conditional node's context match the text around the anchor
(its prefix string must end the preceding text, its contraction suffix
must begin the following text)? -/
def ctxMatches (before after : List Nat) (n : ConditionalCE32) : Bool :=
  n.pre.isSuffixOf before && n.suf.isPrefixOf after

/-- The total context length of a conditional node (prefix plus
contraction suffix). -/
def ctxLen (n : ConditionalCE32) : Nat :=
  n.pre.length + n.suf.length

/-- Modelled from the spec: traverse a chain in insertion order from the
head keeping the best candidate; a node replaces the current best when it
matches the input and its total context is at least as long, so the
longest total context wins and, among equal lengths, the most recently
inserted alternative wins. -/
def resolveLoop (before after : List Nat) : List ConditionalCE32 → ConditionalCE32 → ConditionalCE32
  | [], best => best
  | n :: t, best =>
    if ctxMatches before after n = true ∧ ctxLen best ≤ ctxLen n then
      resolveLoop before after t n
    else
      resolveLoop before after t best

/-- Modelled from the spec: getCE32FromContraction resolves the input
around an anchor against the anchor's chain (default node d, then the
conditional alternatives in insertion order) by longest total context,
most recent winning ties. -/
def getCE32FromContraction (before after : List Nat) (d : ConditionalCE32)
    (rest : List ConditionalCE32) : CE32 :=
  (resolveLoop before after rest d).ce32

/-- Modelled from the spec: getCE32FromContext resolves code point c with
the given surrounding text through the builder's trie and, when c anchors
a context chain, through longest-match contraction resolution. -/
def getCE32FromContext (b : Builder) (c : Nat) (before after : List Nat) : CE32 :=
  match trieGetD b.trie c with
  | .contraction idx =>
    match chainList b idx with
    | d :: rest => getCE32FromContraction before after d rest
    | [] => .fallback
  | c32 => c32

/-- The longest-match specification: the resolved node r either is the
default d and every matching alternative is strictly shorter, or r is the
alternative at an index i that matches, is at least as long as the
default and every matching alternative, and is strictly longer than every
matching alternative inserted after it. -/
def IsLongestMatchResult (before after : List Nat) (rest : List ConditionalCE32)
    (d r : ConditionalCE32) : Prop :=
  (r = d ∧ ∀ j (hj : j < rest.length), ctxMatches before after rest[j] = true →
      ctxLen rest[j] < ctxLen d)
  ∨ (∃ i, ∃ hi : i < rest.length, r = rest[i] ∧ ctxMatches before after rest[i] = true ∧
      ctxLen d ≤ ctxLen rest[i] ∧
      ∀ j (hj : j < rest.length), ctxMatches before after rest[j] = true →
        ctxLen rest[j] ≤ ctxLen rest[i] ∧ (i < j → ctxLen rest[j] < ctxLen rest[i]))

/-- Does this CE32 keep every index it carries inside the 20-bit
addressable space? -/
def ce32IndexOK : CE32 → Prop
  | .expansion i _ => i ≤ maxIndex
  | .expansion32 i _ => i ≤ maxIndex
  | .contraction i => i ≤ maxIndex
  | _ => True

/-- Every CE32 stored anywhere in the builder keeps its indices inside the
20-bit space. -/
def builderCE32sOK (b : Builder) : Prop :=
  (∀ e ∈ b.trie, ce32IndexOK e.2) ∧
  (∀ n ∈ b.conditionalCE32s, ce32IndexOK n.ce32) ∧
  (∀ x ∈ b.ce32s, ce32IndexOK x)

/-- The conditional nodes of the anchor's chain whose context is exactly
(p, s). -/
def nodesFor (b : Builder) (anchor : Nat) (p s : List Nat) : List ConditionalCE32 :=
  match trieGetD b.trie anchor with
  | .contraction i => (chainList b i).filter (fun n => decide (n.pre = p ∧ n.suf = s))
  | _ => []

/-- A CE with three-byte primary 0x11111100 and the common secondary and
tertiary weights. -/
def ce0 : CE := 0x1111110005000500

/-- A CE with three-byte primary 0x22222200 and the common secondary and
tertiary weights. -/
def ce1 : CE := 0x2222220005000500

/-- A CE with three-byte primary 0x33333300 and the common secondary and
tertiary weights. -/
def ce2 : CE := 0x3333330005000500

/-- The builder of the spec's longest-match example: mappings anchored at
code point 97 with contexts empty, suffix [98] and suffix [98, 99]. -/
def c1Builder : Except BuilderError Builder :=
  match add [] [97] [ce0] emptyBuilder with
  | .error e => .error e
  | .ok b1 =>
    match add [] [97, 98] [ce1] b1 with
    | .error e => .error e
    | .ok b2 => add [] [97, 98, 99] [ce2] b2

/-- The three context resolutions of the spec's longest-match example,
for following text [98, 99, 100], [98, 120] and [120]. -/
def c1Resolved : Except BuilderError (CE32 × CE32 × CE32) :=
  match c1Builder with
  | .error e => .error e
  | .ok b =>
    .ok (getCE32FromContext b 97 [] [98, 99, 100],
         getCE32FromContext b 97 [] [98, 120],
         getCE32FromContext b 97 [] [120])

/-- A bare default conditional node (empty context). -/
def c1DefaultNode : ConditionalCE32 :=
  { pre := [], suf := [], ce32 := .fallback, next := none }

/-- The empty builder after build() has frozen it. -/
def frozenEmpty : Builder := { emptyBuilder with frozen := true }

/-- The CollationData packaged by building the empty builder. -/
def emptyData : CollationData := { trie := [], ce32s := [], ce64s := [], contexts := [] }

/-- A builder whose conditional-chain arena has outgrown the 20-bit index
space. -/
def bigArenaBuilder : Builder :=
  { emptyBuilder with conditionalCE32s := List.replicate (maxIndex + 2) c1DefaultNode }

/-- The builder after storing the expansion [5, 6] once. -/
def c4Builder : Builder := { emptyBuilder with ce64s := [5, 6] }

/-- The builder after storing the CE32 expansion of [ce0, ce0] once. -/
def c3Builder : Builder :=
  { emptyBuilder with ce32s := [.longPrimary 0x11111100, .longPrimary 0x11111100] }

/-- The builder after add([], [97, 98], [ce0]). -/
def c8b1 : Builder :=
  match add [] [97, 98] [ce0] emptyBuilder with
  | .ok b => b
  | .error _ => emptyBuilder

/-- The builder after add([], [97, 98], [ce0]) and add([], [97, 98],
[ce1]). -/
def c8b2 : Builder :=
  match add [] [97, 98] [ce1] c8b1 with
  | .ok b => b
  | .error _ => emptyBuilder

theorem serializeBuffer_spec (bytes buf : List Nat) :
    (buf.length < bytes.length →
      serializeBuffer bytes buf =
        { status := some .bufferOverflow, written := bytes.length, buf := buf }) ∧
    (bytes.length ≤ buf.length →
      serializeBuffer bytes buf =
        { status := none, written := bytes.length, buf := bytes ++ buf.drop bytes.length } ∧
      (bytes ++ buf.drop bytes.length).take bytes.length = bytes ∧
      (bytes ++ buf.drop bytes.length).drop bytes.length = buf.drop bytes.length ∧
      (bytes ++ buf.drop bytes.length).length = buf.length) := by
  constructor
  · intro h
    unfold serializeBuffer
    rw [if_neg (by omega)]
  · intro h
    refine ⟨?_, ?_, ?_, ?_⟩
    · unfold serializeBuffer writeBytes
      rw [if_pos h]
    · simp
    · simp
    · simp [List.length_append, List.length_drop]
      omega

/-- Claim C7: if the capacity passed to serializeTrie (or
serializeUnsafeBackwardSet) is smaller than the serialized size, the call
fails with BufferOverflow, reports the exact required byte count and
performs no partial writes; with sufficient capacity it writes exactly
that many bytes at the front of the buffer, leaves the rest of the buffer
unchanged and returns the count written. -/
theorem c7_serialize_capacity (b : Builder) (buf : List Nat) :
    (buf.length < (serializedTrieBytes b).length →
      serializeTrie b buf =
        { status := some .bufferOverflow, written := (serializedTrieBytes b).length,
          buf := buf }) ∧
    ((serializedTrieBytes b).length ≤ buf.length →
      (serializeTrie b buf).status = none ∧
      (serializeTrie b buf).written = (serializedTrieBytes b).length ∧
      (serializeTrie b buf).buf.take (serializedTrieBytes b).length = serializedTrieBytes b ∧
      (serializeTrie b buf).buf.drop (serializedTrieBytes b).length =
        buf.drop (serializedTrieBytes b).length ∧
      (serializeTrie b buf).buf.length = buf.length) ∧
    (buf.length < (serializedBackwardSetBytes b).length →
      serializeUnsafeBackwardSet b buf =
        { status := some .bufferOverflow, written := (serializedBackwardSetBytes b).length,
          buf := buf }) ∧
    ((serializedBackwardSetBytes b).length ≤ buf.length →
      (serializeUnsafeBackwardSet b buf).status = none ∧
      (serializeUnsafeBackwardSet b buf).written = (serializedBackwardSetBytes b).length ∧
      (serializeUnsafeBackwardSet b buf).buf.take (serializedBackwardSetBytes b).length =
        serializedBackwardSetBytes b) := by
  refine ⟨?_, ?_, ?_, ?_⟩
  · intro h
    exact (serializeBuffer_spec (serializedTrieBytes b) buf).1 h
  · intro h
    obtain ⟨h1, h2, h3, h4⟩ := (serializeBuffer_spec (serializedTrieBytes b) buf).2 h
    unfold serializeTrie
    rw [h1]
    exact ⟨rfl, rfl, h2, h3, h4⟩
  · intro h
    exact (serializeBuffer_spec (serializedBackwardSetBytes b) buf).1 h
  · intro h
    obtain ⟨h1, h2, _, _⟩ := (serializeBuffer_spec (serializedBackwardSetBytes b) buf).2 h
    unfold serializeUnsafeBackwardSet
    rw [h1]
    exact ⟨rfl, rfl, h2⟩

theorem c7_serialize_capacity_witness :
    serializeTrie emptyBuilder [] =
      { status := some .bufferOverflow, written := (serializedTrieBytes emptyBuilder).length,
        buf := [] } :=
  (c7_serialize_capacity emptyBuilder []).1 (by decide)

theorem findSeq_some {α : Type} [DecidableEq α] (store seq : List α) (i : Nat)
    (h : findSeq store seq = some i) :
    (store.drop i).take seq.length = seq ∧ i ≤ maxIndex := by
  unfold findSeq at h
  by_cases hl : seq.length ≤ store.length
  · rw [if_pos hl] at h
    have hmem := List.mem_of_mem_getLast? h
    have h1 := List.mem_filter.mp hmem
    refine ⟨of_decide_eq_true h1.2, ?_⟩
    have := List.mem_range.mp h1.1
    omega
  · rw [if_neg hl] at h
    exact absurd h (by simp)

theorem findSeq_append_self {α : Type} [DecidableEq α] (store seq : List α)
    (h : store.length ≤ maxIndex) :
    findSeq (store ++ seq) seq = some store.length := by
  unfold findSeq
  rw [if_pos (by simp)]
  have hmin : min ((store ++ seq).length - seq.length) maxIndex + 1 = store.length + 1 := by
    simp only [List.length_append]
    omega
  rw [hmin, List.range_succ, List.filter_append]
  have hpred : decide (((store ++ seq).drop store.length).take seq.length = seq) = true := by
    simp
  rw [show List.filter (fun i => decide (((store ++ seq).drop i).take seq.length = seq))
        [store.length] = [store.length] from by simp [List.filter, hpred],
      List.getLast?_concat]

theorem encodeExpansion_ok (ces : List CE) (b : Builder) (c : CE32) (b2 : Builder)
    (h : encodeExpansion ces b = .ok (c, b2)) :
    ∃ i, c = .expansion i ces.length ∧ i ≤ maxIndex ∧
      (b2.ce64s.drop i).take ces.length = ces ∧
      b2.trie = b.trie ∧ b2.ce32s = b.ce32s ∧
      b2.conditionalCE32s = b.conditionalCE32s ∧ b2.frozen = b.frozen := by
  unfold encodeExpansion at h
  cases hf : findSeq b.ce64s ces with
  | some i =>
    rw [hf] at h
    simp only [Except.ok.injEq, Prod.mk.injEq] at h
    obtain ⟨hc, hb⟩ := h
    subst hb
    exact ⟨i, hc.symm, (findSeq_some _ _ _ hf).2, (findSeq_some _ _ _ hf).1,
           rfl, rfl, rfl, rfl⟩
  | none =>
    rw [hf] at h
    by_cases hg : b.ce64s.length ≤ maxIndex
    · rw [if_pos hg] at h
      simp only [Except.ok.injEq, Prod.mk.injEq] at h
      obtain ⟨hc, hb⟩ := h
      subst hb
      exact ⟨b.ce64s.length, hc.symm, hg, by simp, rfl, rfl, rfl, rfl⟩
    · rw [if_neg hg] at h
      exact absurd h (by simp)

theorem encodeExpansion32_ok (l : List CE32) (b : Builder) (c : CE32) (b2 : Builder)
    (h : encodeExpansion32 l b = .ok (c, b2)) :
    ∃ i, c = .expansion32 i l.length ∧ i ≤ maxIndex ∧
      (b2.ce32s.drop i).take l.length = l ∧
      b2.trie = b.trie ∧ b2.ce64s = b.ce64s ∧
      b2.conditionalCE32s = b.conditionalCE32s ∧ b2.frozen = b.frozen ∧
      (b2.ce32s = b.ce32s ∨ b2.ce32s = b.ce32s ++ l) := by
  unfold encodeExpansion32 at h
  cases hf : findSeq b.ce32s l with
  | some i =>
    rw [hf] at h
    simp only [Except.ok.injEq, Prod.mk.injEq] at h
    obtain ⟨hc, hb⟩ := h
    subst hb
    exact ⟨i, hc.symm, (findSeq_some _ _ _ hf).2, (findSeq_some _ _ _ hf).1,
           rfl, rfl, rfl, rfl, Or.inl rfl⟩
  | none =>
    rw [hf] at h
    by_cases hg : b.ce32s.length ≤ maxIndex
    · rw [if_pos hg] at h
      simp only [Except.ok.injEq, Prod.mk.injEq] at h
      obtain ⟨hc, hb⟩ := h
      subst hb
      exact ⟨b.ce32s.length, hc.symm, hg, by simp, rfl, rfl, rfl, rfl, Or.inr rfl⟩
    · rw [if_neg hg] at h
      exact absurd h (by simp)

theorem div_mod_recombine (x m : Nat) (h1 : x % 2 ^ 32 = m) :
    x / 2 ^ 32 * 2 ^ 32 + m = x := by
  omega

theorem encodeOne_shape (ce : CE) (c : CE32) (h : encodeOneCEAsCE32 ce = some c) :
    c = .longPrimary (ce / 2 ^ 32) := by
  unfold encodeOneCEAsCE32 at h
  by_cases hc : ce % 2 ^ 32 = commonSecAndTer ∧ ce / 2 ^ 32 % 256 = 0
  · rw [if_pos hc] at h
    exact (Option.some.inj h).symm
  · rw [if_neg hc] at h
    exact absurd h (by simp)

theorem encodeOne_decodeOne (ce : CE) (c : CE32) (h : encodeOneCEAsCE32 ce = some c) :
    decodeOneCE32 c = ce := by
  unfold encodeOneCEAsCE32 at h
  by_cases hc : ce % 2 ^ 32 = commonSecAndTer ∧ ce / 2 ^ 32 % 256 = 0
  · rw [if_pos hc] at h
    obtain h := Option.some.inj h
    subst h
    show ce / 2 ^ 32 * 2 ^ 32 + commonSecAndTer = ce
    exact div_mod_recombine ce commonSecAndTer hc.1
  · rw [if_neg hc] at h
    exact absurd h (by simp)

theorem encodeAll_map_decode (ces : List CE) (l : List CE32)
    (h : encodeAll ces = some l) : l.map decodeOneCE32 = ces := by
  induction ces generalizing l with
  | nil =>
    obtain h := Option.some.inj h
    subst h
    rfl
  | cons ce rest ih =>
    unfold encodeAll at h
    cases h1 : encodeOneCEAsCE32 ce with
    | none => rw [h1] at h; exact absurd h (by simp)
    | some c =>
      cases h2 : encodeAll rest with
      | none => rw [h1, h2] at h; exact absurd h (by simp)
      | some l2 =>
        rw [h1, h2] at h
        obtain h := Option.some.inj h
        subst h
        simp only [List.map_cons]
        rw [encodeOne_decodeOne ce c h1, ih l2 h2]

/-- Claim C4: encoding the same expansion list a second time returns the
same store CE32 (hence the same index) and leaves the store untouched;
across the two calls the backing store grows by exactly one sequence's
worth of entries (on the first call, when the sequence was not yet
stored), not two; and whenever the scan finds an existing identical
sequence its index is reused with no append at all.  The same holds for
the CE32 expansion store. -/
theorem c4_dedup :
    (∀ ces (b : Builder) c1 b1 c2 b2,
      encodeExpansion ces b = .ok (c1, b1) →
      encodeExpansion ces b1 = .ok (c2, b2) →
      c2 = c1 ∧ b2 = b1 ∧
      (findSeq b.ce64s ces = none → b1.ce64s.length = b.ce64s.length + ces.length)) ∧
    (∀ ces (b : Builder) i, findSeq b.ce64s ces = some i →
      encodeExpansion ces b = .ok (.expansion i ces.length, b)) ∧
    (∀ l (b : Builder) c1 b1 c2 b2,
      encodeExpansion32 l b = .ok (c1, b1) →
      encodeExpansion32 l b1 = .ok (c2, b2) →
      c2 = c1 ∧ b2 = b1 ∧
      (findSeq b.ce32s l = none → b1.ce32s.length = b.ce32s.length + l.length)) ∧
    (∀ l (b : Builder) i, findSeq b.ce32s l = some i →
      encodeExpansion32 l b = .ok (.expansion32 i l.length, b)) := by
  refine ⟨?_, ?_, ?_, ?_⟩
  · intro ces b c1 b1 c2 b2 h1 h2
    unfold encodeExpansion at h1 h2
    cases hf : findSeq b.ce64s ces with
    | some i =>
      rw [hf] at h1
      simp only [Except.ok.injEq, Prod.mk.injEq] at h1
      obtain ⟨hc1, hb1⟩ := h1
      subst hb1
      rw [hf] at h2
      simp only [Except.ok.injEq, Prod.mk.injEq] at h2
      obtain ⟨hc2, hb2⟩ := h2
      refine ⟨hc2.symm.trans hc1, hb2.symm, fun hn => ?_⟩
      exact Option.noConfusion hn
    | none =>
      rw [hf] at h1
      by_cases hg : b.ce64s.length ≤ maxIndex
      · rw [if_pos hg] at h1
        simp only [Except.ok.injEq, Prod.mk.injEq] at h1
        obtain ⟨hc1, hb1⟩ := h1
        subst hb1
        rw [show findSeq ({ b with ce64s := b.ce64s ++ ces } : Builder).ce64s ces
              = some b.ce64s.length from findSeq_append_self b.ce64s ces hg] at h2
        simp only [Except.ok.injEq, Prod.mk.injEq] at h2
        obtain ⟨hc2, hb2⟩ := h2
        refine ⟨hc2.symm.trans hc1, hb2.symm, fun _ => ?_⟩
        simp
      · rw [if_neg hg] at h1
        exact absurd h1 (by simp)
  · intro ces b i hf
    unfold encodeExpansion
    rw [hf]
  · intro l b c1 b1 c2 b2 h1 h2
    unfold encodeExpansion32 at h1 h2
    cases hf : findSeq b.ce32s l with
    | some i =>
      rw [hf] at h1
      simp only [Except.ok.injEq, Prod.mk.injEq] at h1
      obtain ⟨hc1, hb1⟩ := h1
      subst hb1
      rw [hf] at h2
      simp only [Except.ok.injEq, Prod.mk.injEq] at h2
      obtain ⟨hc2, hb2⟩ := h2
      refine ⟨hc2.symm.trans hc1, hb2.symm, fun hn => ?_⟩
      exact Option.noConfusion hn
    | none =>
      rw [hf] at h1
      by_cases hg : b.ce32s.length ≤ maxIndex
      · rw [if_pos hg] at h1
        simp only [Except.ok.injEq, Prod.mk.injEq] at h1
        obtain ⟨hc1, hb1⟩ := h1
        subst hb1
        rw [show findSeq ({ b with ce32s := b.ce32s ++ l } : Builder).ce32s l
              = some b.ce32s.length from findSeq_append_self b.ce32s l hg] at h2
        simp only [Except.ok.injEq, Prod.mk.injEq] at h2
        obtain ⟨hc2, hb2⟩ := h2
        refine ⟨hc2.symm.trans hc1, hb2.symm, fun _ => ?_⟩
        simp
      · rw [if_neg hg] at h1
        exact absurd h1 (by simp)
  · intro l b i hf
    unfold encodeExpansion32
    rw [hf]

theorem c4_dedup_witness :
    CE32.expansion 0 2 = CE32.expansion 0 2 ∧ c4Builder = c4Builder ∧
    (findSeq emptyBuilder.ce64s [5, 6] = none →
      c4Builder.ce64s.length = emptyBuilder.ce64s.length + [5, 6].length) :=
  c4_dedup.1 [5, 6] emptyBuilder (.expansion 0 2) c4Builder (.expansion 0 2) c4Builder
    (by rfl) (by rfl)

/-- Claim C3: for every list of collation elements, decoding the CE32
produced by encodeCEs (following expansion indirection into the CE/CE32
stores of the resulting builder) yields exactly the list again. -/
theorem c3_roundtrip (ces : List CE) (b : Builder) (c32 : CE32) (b2 : Builder)
    (h : encodeCEs ces b = .ok (c32, b2)) :
    decodeCE32 b2 c32 = ces := by
  match ces with
  | [ce] =>
    cases hE : encodeOneCEAsCE32 ce with
    | some c =>
      have h2 : (match encodeOneCEAsCE32 ce with
          | some c => Except.ok (c, b)
          | none => encodeExpansion [ce] b) = Except.ok (c32, b2) := h
      rw [hE] at h2
      have h3 : (Except.ok (c, b) : Except BuilderError (CE32 × Builder))
          = Except.ok (c32, b2) := h2
      simp only [Except.ok.injEq, Prod.mk.injEq] at h3
      obtain ⟨hc, hb⟩ := h3
      subst hc
      subst hb
      have hd := encodeOne_decodeOne ce c hE
      rw [encodeOne_shape ce c hE] at hd
      rw [encodeOne_shape ce c hE]
      show [decodeOneCE32 (.longPrimary (ce / 2 ^ 32))] = [ce]
      rw [hd]
    | none =>
      have h2 : (match encodeOneCEAsCE32 ce with
          | some c => Except.ok (c, b)
          | none => encodeExpansion [ce] b) = Except.ok (c32, b2) := h
      rw [hE] at h2
      have h3 : encodeExpansion [ce] b = Except.ok (c32, b2) := h2
      obtain ⟨i, hc, _, hsub, _, _, _, _⟩ := encodeExpansion_ok [ce] b c32 b2 h3
      subst hc
      exact hsub
  | [] =>
    have h2 : encodeExpansion32 [] b = Except.ok (c32, b2) := h
    obtain ⟨i, hc, _, _, _, _, _, _, _⟩ := encodeExpansion32_ok [] b c32 b2 h2
    subst hc
    show ((b2.ce32s.drop i).take ([] : List CE32).length).map decodeOneCE32 = []
    simp
  | ce :: ce2 :: rest =>
    have h2 : (match encodeAll (ce :: ce2 :: rest) with
        | some l => encodeExpansion32 l b
        | none => encodeExpansion (ce :: ce2 :: rest) b) = Except.ok (c32, b2) := h
    cases hA : encodeAll (ce :: ce2 :: rest) with
    | some l =>
      rw [hA] at h2
      have h3 : encodeExpansion32 l b = Except.ok (c32, b2) := h2
      obtain ⟨i, hc, _, hsub, _, _, _, _, _⟩ := encodeExpansion32_ok l b c32 b2 h3
      subst hc
      show ((b2.ce32s.drop i).take l.length).map decodeOneCE32 = ce :: ce2 :: rest
      rw [hsub]
      exact encodeAll_map_decode _ l hA
    | none =>
      rw [hA] at h2
      have h3 : encodeExpansion (ce :: ce2 :: rest) b = Except.ok (c32, b2) := h2
      obtain ⟨i, hc, _, hsub, _, _, _, _⟩ := encodeExpansion_ok (ce :: ce2 :: rest) b c32 b2 h3
      subst hc
      exact hsub

theorem c3_roundtrip_witness :
    decodeCE32 c3Builder (.expansion32 0 2) = [ce0, ce0] :=
  c3_roundtrip [ce0, ce0] emptyBuilder (.expansion32 0 2) c3Builder (by rfl)

theorem addConditionalCE32_overflow (pre suf : List Nat) (c32 : CE32) (b : Builder)
    (h : maxIndex < b.conditionalCE32s.length) :
    addConditionalCE32 pre suf c32 b = .error .indexOverflow := by
  unfold addConditionalCE32
  rw [if_neg (by omega)]

theorem addConditionalCE32_ok (pre suf : List Nat) (c32 : CE32) (b : Builder)
    (i : Nat) (b2 : Builder) (h : addConditionalCE32 pre suf c32 b = .ok (i, b2)) :
    i = b.conditionalCE32s.length ∧ i ≤ maxIndex ∧
    b2 = { b with conditionalCE32s := b.conditionalCE32s ++
        [{ pre := pre, suf := suf, ce32 := c32, next := none }] } := by
  unfold addConditionalCE32 at h
  by_cases hg : b.conditionalCE32s.length ≤ maxIndex
  · rw [if_pos hg] at h
    simp only [Except.ok.injEq, Prod.mk.injEq] at h
    obtain ⟨hi, hb⟩ := h
    exact ⟨hi.symm, hi ▸ hg, hb.symm⟩
  · rw [if_neg hg] at h
    exact absurd h (by simp)

theorem encodeExpansion_overflow (ces : List CE) (b : Builder)
    (hf : findSeq b.ce64s ces = none) (h : maxIndex < b.ce64s.length) :
    encodeExpansion ces b = .error .indexOverflow := by
  have he : encodeExpansion ces b
      = if b.ce64s.length ≤ maxIndex
        then .ok (.expansion b.ce64s.length ces.length, { b with ce64s := b.ce64s ++ ces })
        else .error .indexOverflow := by
    unfold encodeExpansion
    rw [hf]
  rw [he, if_neg (by omega)]

theorem encodeExpansion32_overflow (l : List CE32) (b : Builder)
    (hf : findSeq b.ce32s l = none) (h : maxIndex < b.ce32s.length) :
    encodeExpansion32 l b = .error .indexOverflow := by
  have he : encodeExpansion32 l b
      = if b.ce32s.length ≤ maxIndex
        then .ok (.expansion32 b.ce32s.length l.length, { b with ce32s := b.ce32s ++ l })
        else .error .indexOverflow := by
    unfold encodeExpansion32
    rw [hf]
  rw [he, if_neg (by omega)]

theorem encodeExpansion_index_ok (ces : List CE) (b : Builder) (c : CE32) (b2 : Builder)
    (h : encodeExpansion ces b = .ok (c, b2)) : ce32IndexOK c := by
  obtain ⟨i, hc, hle, _⟩ := encodeExpansion_ok ces b c b2 h
  subst hc
  exact hle

theorem encodeExpansion32_index_ok (l : List CE32) (b : Builder) (c : CE32) (b2 : Builder)
    (h : encodeExpansion32 l b = .ok (c, b2)) : ce32IndexOK c := by
  obtain ⟨i, hc, hle, _⟩ := encodeExpansion32_ok l b c b2 h
  subst hc
  exact hle

theorem encodeCEs_index_ok (ces : List CE) (b : Builder) (c : CE32) (b2 : Builder)
    (h : encodeCEs ces b = .ok (c, b2)) : ce32IndexOK c := by
  match ces with
  | [ce] =>
    cases hE : encodeOneCEAsCE32 ce with
    | some c0 =>
      have h2 : (match encodeOneCEAsCE32 ce with
          | some c0 => Except.ok (c0, b)
          | none => encodeExpansion [ce] b) = Except.ok (c, b2) := h
      rw [hE] at h2
      have h3 : (Except.ok (c0, b) : Except BuilderError (CE32 × Builder))
          = Except.ok (c, b2) := h2
      simp only [Except.ok.injEq, Prod.mk.injEq] at h3
      rw [← h3.1, encodeOne_shape ce c0 hE]
      trivial
    | none =>
      have h2 : (match encodeOneCEAsCE32 ce with
          | some c0 => Except.ok (c0, b)
          | none => encodeExpansion [ce] b) = Except.ok (c, b2) := h
      rw [hE] at h2
      exact encodeExpansion_index_ok [ce] b c b2 h2
  | [] => exact encodeExpansion32_index_ok [] b c b2 h
  | ce :: ce2 :: rest =>
    have h2 : (match encodeAll (ce :: ce2 :: rest) with
        | some l => encodeExpansion32 l b
        | none => encodeExpansion (ce :: ce2 :: rest) b) = Except.ok (c, b2) := h
    cases hA : encodeAll (ce :: ce2 :: rest) with
    | some l =>
      rw [hA] at h2
      exact encodeExpansion32_index_ok l b c b2 h2
    | none =>
      rw [hA] at h2
      exact encodeExpansion_index_ok (ce :: ce2 :: rest) b c b2 h2

theorem encodeAll_elems (ces : List CE) (l : List CE32) (h : encodeAll ces = some l) :
    ∀ x ∈ l, ce32IndexOK x := by
  induction ces generalizing l with
  | nil =>
    obtain h := Option.some.inj h
    subst h
    intro x hx
    cases hx
  | cons ce rest ih =>
    unfold encodeAll at h
    cases h1 : encodeOneCEAsCE32 ce with
    | none => rw [h1] at h; exact absurd h (by simp)
    | some c =>
      cases h2 : encodeAll rest with
      | none => rw [h1, h2] at h; exact absurd h (by simp)
      | some l2 =>
        rw [h1, h2] at h
        obtain h := Option.some.inj h
        subst h
        intro x hx
        rcases List.mem_cons.mp hx with hx | hx
        · rw [hx, encodeOne_shape ce c h1]
          trivial
        · exact ih l2 h2 x hx

theorem encodeExpansion32_preserves (l : List CE32) (b : Builder) (c : CE32) (b2 : Builder)
    (h : encodeExpansion32 l b = .ok (c, b2)) (hl : ∀ x ∈ l, ce32IndexOK x) :
    b2.trie = b.trie ∧ b2.conditionalCE32s = b.conditionalCE32s ∧ b2.frozen = b.frozen ∧
    ((∀ x ∈ b.ce32s, ce32IndexOK x) → ∀ x ∈ b2.ce32s, ce32IndexOK x) := by
  obtain ⟨i, _, _, _, ht, _, hcond, hfr, hd⟩ := encodeExpansion32_ok l b c b2 h
  refine ⟨ht, hcond, hfr, ?_⟩
  intro hok x hx
  rcases hd with hd | hd
  · rw [hd] at hx
    exact hok x hx
  · rw [hd] at hx
    rcases List.mem_append.mp hx with hx | hx
    · exact hok x hx
    · exact hl x hx

theorem encodeCEs_preserves (ces : List CE) (b : Builder) (c : CE32) (b2 : Builder)
    (h : encodeCEs ces b = .ok (c, b2)) :
    b2.trie = b.trie ∧ b2.conditionalCE32s = b.conditionalCE32s ∧ b2.frozen = b.frozen ∧
    ((∀ x ∈ b.ce32s, ce32IndexOK x) → ∀ x ∈ b2.ce32s, ce32IndexOK x) := by
  match ces with
  | [ce] =>
    cases hE : encodeOneCEAsCE32 ce with
    | some c0 =>
      have h2 : (match encodeOneCEAsCE32 ce with
          | some c0 => Except.ok (c0, b)
          | none => encodeExpansion [ce] b) = Except.ok (c, b2) := h
      rw [hE] at h2
      have h3 : (Except.ok (c0, b) : Except BuilderError (CE32 × Builder))
          = Except.ok (c, b2) := h2
      simp only [Except.ok.injEq, Prod.mk.injEq] at h3
      rw [← h3.2]
      exact ⟨rfl, rfl, rfl, fun hok => hok⟩
    | none =>
      have h2 : (match encodeOneCEAsCE32 ce with
          | some c0 => Except.ok (c0, b)
          | none => encodeExpansion [ce] b) = Except.ok (c, b2) := h
      rw [hE] at h2
      obtain ⟨_, _, _, _, ht, hce, hcond, hfr⟩ := encodeExpansion_ok [ce] b c b2 h2
      exact ⟨ht, hcond, hfr, fun hok => hce ▸ hok⟩
  | [] =>
    have h2 : encodeExpansion32 [] b = Except.ok (c, b2) := h
    exact encodeExpansion32_preserves [] b c b2 h2 (fun x hx => absurd hx (by simp))
  | ce :: ce2 :: rest =>
    have h2 : (match encodeAll (ce :: ce2 :: rest) with
        | some l => encodeExpansion32 l b
        | none => encodeExpansion (ce :: ce2 :: rest) b) = Except.ok (c, b2) := h
    cases hA : encodeAll (ce :: ce2 :: rest) with
    | some l =>
      rw [hA] at h2
      exact encodeExpansion32_preserves l b c b2 h2 (encodeAll_elems _ l hA)
    | none =>
      rw [hA] at h2
      obtain ⟨_, _, _, _, ht, hce, hcond, hfr⟩ :=
        encodeExpansion_ok (ce :: ce2 :: rest) b c b2 h2
      exact ⟨ht, hcond, hfr, fun hok => hce ▸ hok⟩

theorem trieGetD_index_ok (t : List (Nat × CE32)) (c : Nat)
    (h : ∀ e ∈ t, ce32IndexOK e.2) : ce32IndexOK (trieGetD t c) := by
  induction t with
  | nil => trivial
  | cons e rest ih =>
    unfold trieGetD
    by_cases hc : e.1 = c
    · rw [if_pos hc]
      exact h e (List.mem_cons_self e rest)
    · rw [if_neg hc]
      exact ih (fun x hx => h x (List.mem_cons_of_mem e hx))

theorem setCondCE32_mem (arena : List ConditionalCE32) (i : Nat) (c : CE32)
    (hok : ∀ n ∈ arena, ce32IndexOK n.ce32) (hc : ce32IndexOK c) :
    ∀ n ∈ setCondCE32 arena i c, ce32IndexOK n.ce32 := by
  unfold setCondCE32
  cases hi : arena[i]? with
  | none => exact hok
  | some n0 =>
    intro n hn
    rcases List.mem_or_eq_of_mem_set hn with h | h
    · exact hok n h
    · subst h
      exact hc

theorem setCondNext_mem (arena : List ConditionalCE32) (i j : Nat)
    (hok : ∀ n ∈ arena, ce32IndexOK n.ce32) :
    ∀ n ∈ setCondNext arena i j, ce32IndexOK n.ce32 := by
  unfold setCondNext
  cases hi : arena[i]? with
  | none => exact hok
  | some n0 =>
    intro n hn
    rcases List.mem_or_eq_of_mem_set hn with h | h
    · exact hok n h
    · subst h
      exact hok n0 (List.getElem?_mem hi)

theorem addToChain_preserves (p : List Nat) (anchor : Nat) (s : List Nat) (c32 : CE32)
    (idx : Nat) (b b2 : Builder) (h : addToChain p anchor s c32 idx b = .ok b2)
    (hc : ce32IndexOK c32) (hok : builderCE32sOK b) : builderCE32sOK b2 := by
  obtain ⟨hokt, hokc, hok32⟩ := hok
  unfold addToChain at h
  rcases hcf : chainFindAux b.conditionalCE32s p s b.conditionalCE32s.length idx
    with ⟨fst, lastv⟩
  rw [hcf] at h
  cases fst with
  | some j =>
    simp only [Except.ok.injEq] at h
    subst h
    exact ⟨hokt, setCondCE32_mem b.conditionalCE32s j c32 hokc hc, hok32⟩
  | none =>
    cases hac : addConditionalCE32 p s c32 b with
    | error e =>
      rw [hac] at h
      have h3 : (Except.error e : Except BuilderError Builder) = Except.ok b2 := h
      exact Except.noConfusion h3
    | ok pr =>
      obtain ⟨newIdx, b1⟩ := pr
      rw [hac] at h
      simp only [Except.ok.injEq] at h
      subst h
      obtain ⟨_, _, hb1⟩ := addConditionalCE32_ok p s c32 b newIdx b1 hac
      subst hb1
      refine ⟨hokt, ?_, hok32⟩
      refine setCondNext_mem _ lastv newIdx ?_
      intro n hn
      rcases List.mem_append.mp hn with hn | hn
      · exact hokc n hn
      · rcases List.mem_singleton.mp hn with rfl
        exact hc

theorem newChain_preserves (p : List Nat) (anchor : Nat) (s : List Nat) (c32 : CE32)
    (b b2 : Builder) (h : newChain p anchor s c32 b = .ok b2)
    (hc : ce32IndexOK c32) (hok : builderCE32sOK b) : builderCE32sOK b2 := by
  obtain ⟨hokt, hokc, hok32⟩ := hok
  unfold newChain at h
  cases hac : addConditionalCE32 [] [] (trieGetD b.trie anchor) b with
  | error e =>
    rw [hac] at h
    have h3 : (Except.error e : Except BuilderError Builder) = Except.ok b2 := h
    exact Except.noConfusion h3
  | ok pr =>
    obtain ⟨i0, b1⟩ := pr
    rw [hac] at h
    have h4 : newChainTail p anchor s c32 i0 b1 = Except.ok b2 := h
    obtain ⟨hi0, hi0le, hb1⟩ := addConditionalCE32_ok [] [] _ b i0 b1 hac
    unfold newChainTail at h4
    cases hac2 : addConditionalCE32 p s c32 b1 with
    | error e =>
      rw [hac2] at h4
      have h3 : (Except.error e : Except BuilderError Builder) = Except.ok b2 := h4
      exact Except.noConfusion h3
    | ok pr2 =>
      obtain ⟨i1, b1b⟩ := pr2
      rw [hac2] at h4
      simp only [Except.ok.injEq] at h4
      subst h4
      obtain ⟨hi1, hi1le, hb1b⟩ := addConditionalCE32_ok p s c32 b1 i1 b1b hac2
      subst hb1b
      subst hb1
      refine ⟨?_, ?_, hok32⟩
      · intro e he
        rcases List.mem_cons.mp he with he | he
        · subst he
          exact hi0le
        · exact hokt e he
      · refine setCondNext_mem _ i0 i1 ?_
        intro n hn
        rcases List.mem_append.mp hn with hn | hn
        · rcases List.mem_append.mp hn with hn | hn
          · exact hokc n hn
          · rcases List.mem_singleton.mp hn with rfl
            exact trieGetD_index_ok b.trie anchor hokt
        · rcases List.mem_singleton.mp hn with rfl
          exact hc

theorem addContextual_preserves (p : List Nat) (anchor : Nat) (s : List Nat) (c32 : CE32)
    (b b2 : Builder) (h : addContextual p anchor s c32 b = .ok b2)
    (hc : ce32IndexOK c32) (hok : builderCE32sOK b) : builderCE32sOK b2 := by
  unfold addContextual at h
  cases hg : contractionIndexOf (trieGetD b.trie anchor) with
  | some idx =>
    rw [hg] at h
    exact addToChain_preserves p anchor s c32 idx b b2 h hc hok
  | none =>
    rw [hg] at h
    exact newChain_preserves p anchor s c32 b b2 h hc hok

theorem add_preserves_indices (p s : List Nat) (ces : List CE) (b b2 : Builder)
    (h : add p s ces b = .ok b2) (hok : builderCE32sOK b) : builderCE32sOK b2 := by
  unfold add at h
  by_cases hfz : b.frozen
  · rw [if_pos hfz] at h
    exact absurd h (by simp)
  · rw [if_neg hfz] at h
    cases s with
    | nil =>
      have h3 : (Except.error BuilderError.invalidArgument : Except BuilderError Builder)
          = Except.ok b2 := h
      exact Except.noConfusion h3
    | cons anchor suffix =>
      cases hE : encodeCEs ces b with
      | error e =>
        rw [hE] at h
        have h3 : (Except.error e : Except BuilderError Builder) = Except.ok b2 := h
        exact Except.noConfusion h3
      | ok pr =>
        obtain ⟨c32, b1⟩ := pr
        rw [hE] at h
        obtain ⟨ht1, hcond1, _, hce1⟩ := encodeCEs_preserves ces b c32 b1 hE
        have hidx := encodeCEs_index_ok ces b c32 b1 hE
        obtain ⟨hokt, hokc, hok32⟩ := hok
        have hok1 : builderCE32sOK b1 :=
          ⟨ht1 ▸ hokt, hcond1 ▸ hokc, hce1 hok32⟩
        by_cases hctx : p = [] ∧ suffix = []
        · have h3 : (if p = [] ∧ suffix = []
              then Except.ok { b1 with trie := trieSet b1.trie anchor c32, modified := true }
              else addContextual p anchor suffix c32 b1) = Except.ok b2 := h
          rw [if_pos hctx] at h3
          simp only [Except.ok.injEq] at h3
          subst h3
          obtain ⟨hokt1, hokc1, hok321⟩ := hok1
          refine ⟨?_, hokc1, hok321⟩
          intro e he
          rcases List.mem_cons.mp he with he | he
          · subst he
            exact hidx
          · exact hokt1 e he
        · have h3 : (if p = [] ∧ suffix = []
              then Except.ok { b1 with trie := trieSet b1.trie anchor c32, modified := true }
              else addContextual p anchor suffix c32 b1) = Except.ok b2 := h
          rw [if_neg hctx] at h3
          exact addContextual_preserves p anchor suffix c32 b1 b2 h3 hidx hok1

/-- Claim C5: the 20-bit index limit is a hard error: appending to the
conditional-chain arena or to an expansion store when the new index would
exceed 0xFFFFF fails with IndexOverflow; every index returned or packed
into a CE32 by a successful append or encode is at most 0xFFFFF; and
add() preserves the invariant that no CE32 stored anywhere in the builder
carries an out-of-range index — indices are never silently truncated. -/
theorem c5_index_limit :
    (∀ pre suf c32 (b : Builder), maxIndex < b.conditionalCE32s.length →
      addConditionalCE32 pre suf c32 b = .error .indexOverflow) ∧
    (∀ pre suf c32 (b : Builder) i b2,
      addConditionalCE32 pre suf c32 b = .ok (i, b2) → i ≤ maxIndex) ∧
    (∀ ces (b : Builder), findSeq b.ce64s ces = none → maxIndex < b.ce64s.length →
      encodeExpansion ces b = .error .indexOverflow) ∧
    (∀ l (b : Builder), findSeq b.ce32s l = none → maxIndex < b.ce32s.length →
      encodeExpansion32 l b = .error .indexOverflow) ∧
    (∀ ces (b : Builder) c b2, encodeCEs ces b = .ok (c, b2) → ce32IndexOK c) ∧
    (∀ p s ces (b : Builder) b2, add p s ces b = .ok b2 →
      builderCE32sOK b → builderCE32sOK b2) :=
  ⟨addConditionalCE32_overflow,
   fun pre suf c32 b i b2 h => ((addConditionalCE32_ok pre suf c32 b i b2 h).2).1,
   encodeExpansion_overflow,
   encodeExpansion32_overflow,
   encodeCEs_index_ok,
   add_preserves_indices⟩

theorem c5_index_limit_witness :
    addConditionalCE32 [] [] .fallback bigArenaBuilder = .error .indexOverflow :=
  c5_index_limit.1 [] [] .fallback bigArenaBuilder
    (by simp only [bigArenaBuilder, List.length_replicate]; omega)

/-- Claim C6: build() is a terminal state transition: after a successful
build(), the builder is frozen and every subsequent mutator (add,
copyFrom, maybeSetPrimaryRange, setPrimaryRangeAndReturnNext) and any
further build() fails with InvalidState; errors return no builder, so the
builder never re-enters a mutable state. -/
theorem c6_build_terminal (b0 b : Builder) (d : CollationData)
    (h : build b0 = .ok (d, b)) :
    b.frozen = true ∧
    (∀ p s ces, add p s ces b = .error .invalidState) ∧
    (∀ src m, copyFrom src m b = .error .invalidState) ∧
    (∀ start last primary step,
      maybeSetPrimaryRange start last primary step b = .error .invalidState) ∧
    (∀ start last primary step,
      setPrimaryRangeAndReturnNext start last primary step b = .error .invalidState) ∧
    build b = .error .invalidState := by
  have hb : b.frozen = true := by
    unfold build at h
    by_cases hf : b0.frozen
    · rw [if_pos hf] at h
      exact absurd h (by simp)
    · rw [if_neg hf] at h
      have := (Except.ok.inj h)
      have hbeq : ({ b0 with frozen := true } : Builder) = b := congrArg Prod.snd this
      rw [← hbeq]
  refine ⟨hb, ?_, ?_, ?_, ?_, ?_⟩
  · intro p s ces
    unfold add
    rw [if_pos hb]
  · intro src m
    unfold copyFrom
    rw [if_pos hb]
  · intro start last primary step
    unfold maybeSetPrimaryRange
    rw [if_pos hb]
  · intro start last primary step
    unfold setPrimaryRangeAndReturnNext maybeSetPrimaryRange
    rw [if_pos hb]
  · unfold build
    rw [if_pos hb]

theorem resolveLoop_spec (before after : List Nat) :
    ∀ (rest : List ConditionalCE32) (d : ConditionalCE32),
      ctxMatches before after d = true →
      IsLongestMatchResult before after rest d (resolveLoop before after rest d) := by
  intro rest
  induction rest with
  | nil =>
    intro d _
    left
    refine ⟨rfl, ?_⟩
    intro j hj
    exact absurd hj (by simp)
  | cons n t ih =>
    intro d hd
    by_cases hc : ctxMatches before after n = true ∧ ctxLen d ≤ ctxLen n
    · have hstep : resolveLoop before after (n :: t) d = resolveLoop before after t n := by
        simp only [resolveLoop]
        rw [if_pos hc]
      rw [hstep]
      rcases ih n hc.1 with ⟨hr, hall⟩ | ⟨i, hi, hr, hm, hle, hall⟩
      · right
        refine ⟨0, by simp, ?_, ?_, ?_, ?_⟩
        · rw [hr]
          rfl
        · exact hc.1
        · exact hc.2
        · intro j hj hmj
          cases j with
          | zero =>
            exact ⟨Nat.le_refl _, fun h0 => absurd h0 (Nat.lt_irrefl 0)⟩
          | succ k =>
            have hk : k < t.length := by
              rw [List.length_cons] at hj
              omega
            rw [List.getElem_cons_succ] at hmj ⊢
            rw [List.getElem_cons_zero]
            have hlt := hall k hk hmj
            exact ⟨Nat.le_of_lt hlt, fun _ => hlt⟩
      · right
        refine ⟨i + 1, ?_, ?_, ?_, ?_, ?_⟩
        · rw [List.length_cons]
          omega
        · rw [List.getElem_cons_succ]
          exact hr
        · rw [List.getElem_cons_succ]
          exact hm
        · rw [List.getElem_cons_succ]
          exact Nat.le_trans hc.2 hle
        · intro j hj hmj
          cases j with
          | zero =>
            rw [List.getElem_cons_zero] at hmj ⊢
            rw [List.getElem_cons_succ]
            exact ⟨hle, fun hcon => absurd hcon (by omega)⟩
          | succ k =>
            have hk : k < t.length := by
              rw [List.length_cons] at hj
              omega
            rw [List.getElem_cons_succ] at hmj ⊢
            rw [List.getElem_cons_succ]
            have hp := hall k hk hmj
            exact ⟨hp.1, fun hik => hp.2 (by omega)⟩
    · have hstep : resolveLoop before after (n :: t) d = resolveLoop before after t d := by
        simp only [resolveLoop]
        rw [if_neg hc]
      rw [hstep]
      have hnlt : ctxMatches before after n = true → ctxLen n < ctxLen d := by
        intro hm
        rcases not_and_or.mp hc with hnm | hnle
        · exact absurd hm hnm
        · omega
      rcases ih d hd with ⟨hr, hall⟩ | ⟨i, hi, hr, hm, hle, hall⟩
      · left
        refine ⟨hr, ?_⟩
        intro j hj hmj
        cases j with
        | zero =>
          rw [List.getElem_cons_zero] at hmj ⊢
          exact hnlt hmj
        | succ k =>
          have hk : k < t.length := by
            rw [List.length_cons] at hj
            omega
          rw [List.getElem_cons_succ] at hmj ⊢
          exact hall k hk hmj
      · right
        refine ⟨i + 1, ?_, ?_, ?_, ?_, ?_⟩
        · rw [List.length_cons]
          omega
        · rw [List.getElem_cons_succ]
          exact hr
        · rw [List.getElem_cons_succ]
          exact hm
        · rw [List.getElem_cons_succ]
          exact hle
        · intro j hj hmj
          cases j with
          | zero =>
            rw [List.getElem_cons_zero] at hmj ⊢
            rw [List.getElem_cons_succ]
            refine ⟨Nat.le_trans (Nat.le_of_lt (hnlt hmj)) hle, ?_⟩
            intro hcon
            exact absurd hcon (by omega)
          | succ k =>
            have hk : k < t.length := by
              rw [List.length_cons] at hj
              omega
            rw [List.getElem_cons_succ] at hmj ⊢
            rw [List.getElem_cons_succ]
            have hp := hall k hk hmj
            exact ⟨hp.1, fun hik => hp.2 (by omega)⟩

/-- Claim C1: context resolution at an anchor code point obeys
longest-match semantics: for every chain (default node plus alternatives
in insertion order from the head) the resolved node matches the input, no
matching alternative has a longer total context (prefix plus contraction
suffix), and among equal-length matches the most recently inserted
alternative wins; concretely, with suffix-contraction mappings anchored
at 'a' (97) for contexts ""→ce0, "b"→ce1, "bc"→ce2, resolving input
"bcd" starting at 'a' yields ce2's CE32, resolving "bx" yields ce1's,
and resolving "x" yields ce0's. -/
theorem c1_longest_match :
    (∀ (before after : List Nat) (rest : List ConditionalCE32) (d : ConditionalCE32),
      d.pre = [] → d.suf = [] →
      IsLongestMatchResult before after rest d (resolveLoop before after rest d)) ∧
    c1Resolved = .ok (.longPrimary 0x33333300, .longPrimary 0x22222200,
                      .longPrimary 0x11111100) := by
  constructor
  · intro before after rest d hp hs
    apply resolveLoop_spec
    unfold ctxMatches
    rw [hp, hs]
    simp
  · rfl

theorem c1_longest_match_witness :
    IsLongestMatchResult [] [] [] c1DefaultNode
      (resolveLoop [] [] [] c1DefaultNode) :=
  c1_longest_match.1 [] [] [] c1DefaultNode rfl rfl

theorem chainFindAux_step_miss (arena : List ConditionalCE32) (p s : List Nat)
    (fuel i j : Nat) (n : ConditionalCE32) (hn : arena[i]? = some n)
    (hmiss : ¬(p = n.pre ∧ s = n.suf)) (hnext : n.next = some j) :
    chainFindAux arena p s (fuel + 1) i = chainFindAux arena p s fuel j := by
  have h0 : chainFindAux arena p s (fuel + 1) i
      = (match arena[i]? with
         | none => ((none : Option Nat), i)
         | some n =>
           if p = n.pre ∧ s = n.suf then (some i, i)
           else match n.next with
                | none => ((none : Option Nat), i)
                | some j2 => chainFindAux arena p s fuel j2) := by
    simp only [chainFindAux]
  rw [h0, hn]
  show (if p = n.pre ∧ s = n.suf then ((some i : Option Nat), i)
        else match n.next with
             | none => ((none : Option Nat), i)
             | some j2 => chainFindAux arena p s fuel j2)
      = chainFindAux arena p s fuel j
  rw [if_neg hmiss]
  show (match n.next with
        | none => ((none : Option Nat), i)
        | some j2 => chainFindAux arena p s fuel j2)
      = chainFindAux arena p s fuel j
  rw [hnext]

theorem chainFindAux_step_hit (arena : List ConditionalCE32) (p s : List Nat)
    (fuel i : Nat) (n : ConditionalCE32) (hn : arena[i]? = some n)
    (hhit : p = n.pre ∧ s = n.suf) :
    chainFindAux arena p s (fuel + 1) i = (some i, i) := by
  have h0 : chainFindAux arena p s (fuel + 1) i
      = (match arena[i]? with
         | none => ((none : Option Nat), i)
         | some n =>
           if p = n.pre ∧ s = n.suf then (some i, i)
           else match n.next with
                | none => ((none : Option Nat), i)
                | some j2 => chainFindAux arena p s fuel j2) := by
    simp only [chainFindAux]
  rw [h0, hn]
  show (if p = n.pre ∧ s = n.suf then ((some i : Option Nat), i)
        else match n.next with
             | none => ((none : Option Nat), i)
             | some j2 => chainFindAux arena p s fuel j2)
      = ((some i : Option Nat), i)
  rw [if_pos hhit]

/-- Claim C8: idempotent re-add: starting from the empty builder, calling
add(p, s, ces) and then add(p, s, ces2) for the same contextual pair
(p, s) leaves exactly one conditional chain node for that pair, and that
node carries the encoding of ces2 — the second add replaces the existing
node's CE32 rather than inserting a duplicate node. -/
theorem c8_idempotent_readd (p : List Nat) (anchor : Nat) (suffix : List Nat)
    (ces ces2 : List CE) (b1 b2 : Builder)
    (hctx : ¬(p = [] ∧ suffix = []))
    (h1 : add p (anchor :: suffix) ces emptyBuilder = .ok b1)
    (h2 : add p (anchor :: suffix) ces2 b1 = .ok b2) :
    ∃ c32 bE, encodeCEs ces2 b1 = .ok (c32, bE) ∧
      nodesFor b2 anchor p suffix =
        [{ pre := p, suf := suffix, ce32 := c32, next := none }] := by
  have h1a : (match encodeCEs ces emptyBuilder with
      | .error e => Except.error e
      | .ok (c32x, b1x) =>
        if p = [] ∧ suffix = []
        then Except.ok { b1x with trie := trieSet b1x.trie anchor c32x, modified := true }
        else addContextual p anchor suffix c32x b1x) = Except.ok b1 := h1
  cases hE1 : encodeCEs ces emptyBuilder with
  | error e =>
    rw [hE1] at h1a
    exact Except.noConfusion
      (show (Except.error e : Except BuilderError Builder) = Except.ok b1 from h1a)
  | ok pr =>
    obtain ⟨c32a, bEa⟩ := pr
    rw [hE1] at h1a
    have h1b : (if p = [] ∧ suffix = []
        then Except.ok { bEa with trie := trieSet bEa.trie anchor c32a, modified := true }
        else addContextual p anchor suffix c32a bEa) = Except.ok b1 := h1a
    rw [if_neg hctx] at h1b
    obtain ⟨htEa0, hcEa0, hfEa0, _⟩ := encodeCEs_preserves ces emptyBuilder c32a bEa hE1
    have htEa : bEa.trie = [] := htEa0
    have hcEa : bEa.conditionalCE32s = [] := hcEa0
    have hfEa : bEa.frozen = false := hfEa0
    have hg1 : contractionIndexOf (trieGetD bEa.trie anchor) = none := by
      rw [htEa]
      rfl
    have h1c : (match contractionIndexOf (trieGetD bEa.trie anchor) with
        | some idx => addToChain p anchor suffix c32a idx bEa
        | none => newChain p anchor suffix c32a bEa) = Except.ok b1 := h1b
    rw [hg1] at h1c
    have h1d : newChain p anchor suffix c32a bEa = Except.ok b1 := h1c
    unfold newChain at h1d
    cases hac1 : addConditionalCE32 [] [] (trieGetD bEa.trie anchor) bEa with
    | error e =>
      rw [hac1] at h1d
      exact Except.noConfusion
        (show (Except.error e : Except BuilderError Builder) = Except.ok b1 from h1d)
    | ok pr1 =>
      obtain ⟨i0, b1a⟩ := pr1
      rw [hac1] at h1d
      have h1e : newChainTail p anchor suffix c32a i0 b1a = Except.ok b1 := h1d
      obtain ⟨hi0, _, hb1a⟩ := addConditionalCE32_ok [] [] _ bEa i0 b1a hac1
      unfold newChainTail at h1e
      cases hac2 : addConditionalCE32 p suffix c32a b1a with
      | error e =>
        rw [hac2] at h1e
        exact Except.noConfusion
          (show (Except.error e : Except BuilderError Builder) = Except.ok b1 from h1e)
      | ok pr2 =>
        obtain ⟨i1, b1b⟩ := pr2
        rw [hac2] at h1e
        simp only [Except.ok.injEq] at h1e
        obtain ⟨hi1, _, hb1b⟩ := addConditionalCE32_ok p suffix c32a b1a i1 b1b hac2
        subst hb1a
        subst hb1b
        have hi0z : i0 = 0 := by
          rw [hi0, hcEa]
          rfl
        have hi1o : i1 = 1 := by
          rw [hi1]
          show (bEa.conditionalCE32s ++
            [({ pre := [], suf := [], ce32 := trieGetD bEa.trie anchor, next := none } :
              ConditionalCE32)]).length = 1
          rw [hcEa]
          rfl
        have hfz1 : b1.frozen = false := by
          rw [← h1e]
          exact hfEa
        have htr1 : b1.trie = [(anchor, CE32.contraction 0)] := by
          rw [← h1e, hi0z]
          show (anchor, CE32.contraction 0) :: bEa.trie = [(anchor, CE32.contraction 0)]
          rw [htEa]
        have hcd1 : b1.conditionalCE32s
            = [{ pre := [], suf := [], ce32 := CE32.fallback, next := some 1 },
               { pre := p, suf := suffix, ce32 := c32a, next := none }] := by
          rw [← h1e, hi0z, hi1o]
          show setCondNext
              ((bEa.conditionalCE32s ++
                [{ pre := [], suf := [], ce32 := trieGetD bEa.trie anchor, next := none }]) ++
               [{ pre := p, suf := suffix, ce32 := c32a, next := none }]) 0 1 = _
          rw [hcEa, htEa]
          rfl
        have h2a : (if b1.frozen = true then Except.error BuilderError.invalidState
            else match encodeCEs ces2 b1 with
            | .error e => Except.error e
            | .ok (c32x, b1x) =>
              if p = [] ∧ suffix = []
              then Except.ok { b1x with trie := trieSet b1x.trie anchor c32x, modified := true }
              else addContextual p anchor suffix c32x b1x) = Except.ok b2 := h2
        rw [hfz1] at h2a
        rw [if_neg Bool.false_ne_true] at h2a
        cases hE2 : encodeCEs ces2 b1 with
        | error e =>
          rw [hE2] at h2a
          exact Except.noConfusion
            (show (Except.error e : Except BuilderError Builder) = Except.ok b2 from h2a)
        | ok pr2b =>
          obtain ⟨c32b, bEb⟩ := pr2b
          rw [hE2] at h2a
          have h2b : (if p = [] ∧ suffix = []
              then Except.ok { bEb with trie := trieSet bEb.trie anchor c32b, modified := true }
              else addContextual p anchor suffix c32b bEb) = Except.ok b2 := h2a
          rw [if_neg hctx] at h2b
          obtain ⟨htEb, hcEb, _, _⟩ := encodeCEs_preserves ces2 b1 c32b bEb hE2
          have hg2 : contractionIndexOf (trieGetD bEb.trie anchor) = some 0 := by
            rw [htEb, htr1]
            simp [trieGetD, contractionIndexOf]
          have h2c : (match contractionIndexOf (trieGetD bEb.trie anchor) with
              | some idx => addToChain p anchor suffix c32b idx bEb
              | none => newChain p anchor suffix c32b bEb) = Except.ok b2 := h2b
          rw [hg2] at h2c
          have h2d : addToChain p anchor suffix c32b 0 bEb = Except.ok b2 := h2c
          have hcf : chainFindAux bEb.conditionalCE32s p suffix
              bEb.conditionalCE32s.length 0 = (some 1, 1) := by
            rw [hcEb, hcd1]
            show chainFindAux
              [{ pre := [], suf := [], ce32 := CE32.fallback, next := some 1 },
               { pre := p, suf := suffix, ce32 := c32a, next := none }] p suffix (1 + 1) 0
              = (some 1, 1)
            rw [chainFindAux_step_miss _ p suffix 1 0 1
              { pre := [], suf := [], ce32 := CE32.fallback, next := some 1 }
              rfl (fun hx => hctx hx) rfl]
            show chainFindAux
              [{ pre := [], suf := [], ce32 := CE32.fallback, next := some 1 },
               { pre := p, suf := suffix, ce32 := c32a, next := none }] p suffix (0 + 1) 1
              = (some 1, 1)
            exact chainFindAux_step_hit _ p suffix 0 1
              { pre := p, suf := suffix, ce32 := c32a, next := none } rfl ⟨rfl, rfl⟩
          unfold addToChain at h2d
          rw [hcf] at h2d
          simp only [Except.ok.injEq] at h2d
          refine ⟨c32b, bEb, rfl, ?_⟩
          have htr2 : b2.trie = [(anchor, CE32.contraction 0)] := by
            rw [← h2d]
            show bEb.trie = _
            rw [htEb, htr1]
          have hcd2 : b2.conditionalCE32s
              = [{ pre := [], suf := [], ce32 := CE32.fallback, next := some 1 },
                 { pre := p, suf := suffix, ce32 := c32b, next := none }] := by
            rw [← h2d]
            show setCondCE32 bEb.conditionalCE32s 1 c32b = _
            rw [hcEb, hcd1]
            rfl
          have hT2 : trieGetD b2.trie anchor = CE32.contraction 0 := by
            rw [htr2]
            simp [trieGetD]
          unfold nodesFor
          rw [hT2]
          show (chainList b2 0).filter (fun n => decide (n.pre = p ∧ n.suf = suffix))
              = [{ pre := p, suf := suffix, ce32 := c32b, next := none }]
          have hchain : chainList b2 0
              = [{ pre := [], suf := [], ce32 := CE32.fallback, next := some 1 },
                 { pre := p, suf := suffix, ce32 := c32b, next := none }] := by
            unfold chainList
            rw [hcd2]
            rfl
          rw [hchain]
          have hctx2 : ¬(([] : List Nat) = p ∧ ([] : List Nat) = suffix) :=
            fun hx => hctx ⟨hx.1.symm, hx.2.symm⟩
          rcases not_and_or.mp hctx2 with hq | hq
          · simp [List.filter, hq]
          · simp [List.filter, hq]

theorem c8_idempotent_readd_witness :
    ∃ c32 bE, encodeCEs [ce1] c8b1 = .ok (c32, bE) ∧
      nodesFor c8b2 97 [] [98] =
        [{ pre := [], suf := [98], ce32 := c32, next := none }] :=
  c8_idempotent_readd [] 97 [98] [ce0] [ce1] c8b1 c8b2 (by decide) (by rfl) (by rfl)

/-- Claim C10: the read-only query getSingleCE can itself fail: it reports
an error exactly when c does not map to exactly one collation element in
this builder, and returns that single CE with no error otherwise; by
contrast getLongPrimaryIfSingleCE signals the analogous non-single-CE or
context-bearing case by returning 0, with no error possible by its
type. -/
theorem c10_single_ce (b : Builder) (c : Nat) :
    (∀ ce, getSingleCE b c = .ok ce ↔ cesAt b c = [ce]) ∧
    ((∃ e, getSingleCE b c = .error e) ↔ ∀ ce, cesAt b c ≠ [ce]) ∧
    (∀ p, trieGetD b.trie c = .longPrimary p → getLongPrimaryIfSingleCE b c = p) ∧
    ((∀ p, trieGetD b.trie c ≠ .longPrimary p) → getLongPrimaryIfSingleCE b c = 0) := by
  have hlp : (∀ p, trieGetD b.trie c = .longPrimary p → getLongPrimaryIfSingleCE b c = p) ∧
      ((∀ p, trieGetD b.trie c ≠ .longPrimary p) → getLongPrimaryIfSingleCE b c = 0) := by
    unfold getLongPrimaryIfSingleCE
    cases ht : trieGetD b.trie c with
    | longPrimary p0 =>
      exact ⟨fun p hp => CE32.longPrimary.inj hp, fun hno => absurd rfl (hno p0)⟩
    | expansion i n => exact ⟨fun p hp => CE32.noConfusion hp, fun _ => rfl⟩
    | expansion32 i n => exact ⟨fun p hp => CE32.noConfusion hp, fun _ => rfl⟩
    | contraction i => exact ⟨fun p hp => CE32.noConfusion hp, fun _ => rfl⟩
    | offsetRange s pr st => exact ⟨fun p hp => CE32.noConfusion hp, fun _ => rfl⟩
    | fallback => exact ⟨fun p hp => CE32.noConfusion hp, fun _ => rfl⟩
  refine ⟨?_, ?_, hlp.1, hlp.2⟩
  · intro ce
    unfold getSingleCE
    rcases hc : cesAt b c with _ | ⟨ce0, _ | ⟨ce1, rest⟩⟩
    · constructor
      · intro hk
        exact absurd hk (by simp)
      · intro hk
        exact List.noConfusion hk
    · constructor
      · intro hk
        rw [Except.ok.inj hk]
      · intro hk
        rw [List.cons.inj hk |>.1]
    · constructor
      · intro hk
        exact absurd hk (by simp)
      · intro hk
        exact List.noConfusion (List.cons.inj hk).2
  · unfold getSingleCE
    rcases hc : cesAt b c with _ | ⟨ce0, _ | ⟨ce1, rest⟩⟩
    · constructor
      · intro _ ce hk
        exact List.noConfusion hk
      · intro _
        exact ⟨.invalidArgument, rfl⟩
    · constructor
      · intro ⟨e, he⟩
        exact absurd he (by simp)
      · intro hk
        exact absurd rfl (hk ce0)
    · constructor
      · intro _ ce hk
        exact List.noConfusion (List.cons.inj hk).2
      · intro _
        exact ⟨.invalidArgument, rfl⟩

theorem c10_single_ce_witness :
    (∀ ce, getSingleCE emptyBuilder 0 = .ok ce ↔ cesAt emptyBuilder 0 = [ce]) ∧
    ((∃ e, getSingleCE emptyBuilder 0 = .error e) ↔ ∀ ce, cesAt emptyBuilder 0 ≠ [ce]) ∧
    (∀ p, trieGetD emptyBuilder.trie 0 = .longPrimary p →
      getLongPrimaryIfSingleCE emptyBuilder 0 = p) ∧
    ((∀ p, trieGetD emptyBuilder.trie 0 ≠ .longPrimary p) →
      getLongPrimaryIfSingleCE emptyBuilder 0 = 0) :=
  c10_single_ce emptyBuilder 0

theorem trieGetD_writeRangeCE32 (f : Nat → CE32) (t : List (Nat × CE32)) :
    ∀ (n start c : Nat), start ≤ c → c < start + n →
      trieGetD (writeRangeCE32 t start n f) c = f c := by
  intro n
  induction n with
  | zero => intro start c h1 h2; omega
  | succ n ih =>
    intro start c h1 h2
    unfold writeRangeCE32 cpList
    by_cases hc : start = c
    · subst hc
      simp [trieGetD]
    · simp only [List.map_cons, List.cons_append, trieGetD, if_neg hc]
      exact ih (start + 1) c (by omega) (by omega)

theorem primaryAt_writeOffsetRangeForm (b : Builder) (start last primary step c : Nat)
    (h1 : start ≤ c) (h2 : c ≤ last) :
    primaryAt { b with trie := writeOffsetRangeForm b.trie start last primary step } c =
      primary + (c - start) * step := by
  unfold primaryAt writeOffsetRangeForm
  rw [trieGetD_writeRangeCE32 _ _ _ _ _ h1 (by omega)]
  rfl

theorem primaryAt_writeDirectForm (b : Builder) (start last primary step c : Nat)
    (h1 : start ≤ c) (h2 : c ≤ last) :
    primaryAt { b with trie := writeDirectForm b.trie start last primary step } c =
      primary + (c - start) * step := by
  unfold primaryAt writeDirectForm
  rw [trieGetD_writeRangeCE32 _ _ _ _ _ h1 (by omega)]
  rfl

/-- Claim C2: for every start ≤ last, primary and step, both range forms
decode every code point c of [start, last] to the primary weight
primary + (c-start)*step — identically whether the single offset-range
CE32 form or the per-code-point long-primary form is chosen — and
setPrimaryRangeAndReturnNext performs the assignment (its result decodes
the same way) and returns primary + (last-start+1)*step. -/
theorem c2_range_correct (b : Builder) (start last primary step : Nat)
    (_h1 : start ≤ last) (h2 : b.frozen = false) :
    (∀ c, start ≤ c → c ≤ last →
      primaryAt { b with trie := writeOffsetRangeForm b.trie start last primary step } c =
        primary + (c - start) * step ∧
      primaryAt { b with trie := writeDirectForm b.trie start last primary step } c =
        primary + (c - start) * step) ∧
    ∃ b2, setPrimaryRangeAndReturnNext start last primary step b =
        .ok (primary + (last - start + 1) * step, b2) ∧
      ∀ c, start ≤ c → c ≤ last → primaryAt b2 c = primary + (c - start) * step := by
  constructor
  · intro c hc1 hc2
    exact ⟨primaryAt_writeOffsetRangeForm b start last primary step c hc1 hc2,
           primaryAt_writeDirectForm b start last primary step c hc1 hc2⟩
  · unfold setPrimaryRangeAndReturnNext maybeSetPrimaryRange
    rw [h2]
    by_cases hw : 2 < last - start + 1
    · rw [if_neg (by simp), if_pos hw]
      refine ⟨_, rfl, ?_⟩
      intro c hc1 hc2
      exact primaryAt_writeOffsetRangeForm b start last primary step c hc1 hc2
    · rw [if_neg (by simp), if_neg hw]
      refine ⟨_, rfl, ?_⟩
      intro c hc1 hc2
      exact primaryAt_writeDirectForm b start last primary step c hc1 hc2

theorem c2_range_correct_witness :
    primaryAt { emptyBuilder with
        trie := writeOffsetRangeForm emptyBuilder.trie 10 13 0x30303000 4 } 12 =
      0x30303000 + (12 - 10) * 4 ∧
    primaryAt { emptyBuilder with
        trie := writeDirectForm emptyBuilder.trie 10 13 0x30303000 4 } 12 =
      0x30303000 + (12 - 10) * 4 :=
  (c2_range_correct emptyBuilder 10 13 0x30303000 4 (by decide) rfl).1 12
    (by decide) (by decide)

/-- Claim C9 (amended): under the applicability precondition that no code
point of [start, last] has a complex mapping, maybeSetPrimaryRange uses
the single offset-range CE32 exactly when that is strictly cheaper than
last-start+1 direct entries after accounting for the extra lookup
indirection (cost 2 < last-start+1), reporting true, and otherwise makes
no change at all and reports false; the boolean result reports whether
the offset-range form was used. -/
theorem c9_maybe_set_primary_range (b : Builder) (start last primary step : Nat)
    (_h1 : start ≤ last) (h2 : b.frozen = false)
    (_h3 : ∀ c, start ≤ c → c ≤ last → isSimpleOrUnassigned (trieGetD b.trie c) = true) :
    (2 < last - start + 1 →
      ∃ b2, maybeSetPrimaryRange start last primary step b = .ok (true, b2) ∧
        ∀ c, start ≤ c → c ≤ last →
          trieGetD b2.trie c = .offsetRange start primary step ∧
          primaryAt b2 c = primary + (c - start) * step) ∧
    (¬ 2 < last - start + 1 →
      maybeSetPrimaryRange start last primary step b = .ok (false, b)) := by
  constructor
  · intro hw
    unfold maybeSetPrimaryRange
    rw [h2, if_neg (by simp), if_pos hw]
    refine ⟨_, rfl, ?_⟩
    intro c hc1 hc2
    constructor
    · unfold writeOffsetRangeForm
      exact trieGetD_writeRangeCE32 _ _ _ _ _ hc1 (by omega)
    · exact primaryAt_writeOffsetRangeForm b start last primary step c hc1 hc2
  · intro hw
    unfold maybeSetPrimaryRange
    rw [h2, if_neg (by simp), if_neg hw]

theorem c9_maybe_set_primary_range_witness :
    ∃ b2, maybeSetPrimaryRange 10 13 0x30303000 4 emptyBuilder = .ok (true, b2) ∧
      ∀ c, 10 ≤ c → c ≤ 13 →
        trieGetD b2.trie c = .offsetRange 10 0x30303000 4 ∧
        primaryAt b2 c = 0x30303000 + (c - 10) * 4 :=
  (c9_maybe_set_primary_range emptyBuilder 10 13 0x30303000 4 (by decide) rfl
    (fun _ _ _ => rfl)).1 (by decide)

/-- Claim C9, counterexample to the claim as stated: on a range not worth
compressing (a single code point), maybeSetPrimaryRange does not fall
back to writing the code point's long-primary CE32 individually — it
makes no change at all (header lines 96-97), so code point 65 still
decodes as unassigned rather than to the long-primary CE32 the claim
requires. -/
theorem c9_maybe_set_primary_range_counterexample :
    maybeSetPrimaryRange 65 65 0x22222200 4 emptyBuilder = .ok (false, emptyBuilder) ∧
    trieGetD emptyBuilder.trie 65 = .fallback ∧
    CE32.fallback ≠ CE32.longPrimary (0x22222200 + (65 - 65) * 4) ∧
    primaryAt emptyBuilder 65 = 0 ∧ (0x22222200 + (65 - 65) * 4 : Nat) ≠ 0 := by
  refine ⟨rfl, rfl, by decide, rfl, by decide⟩

theorem c6_build_terminal_witness :
    frozenEmpty.frozen = true ∧
    (∀ p s ces, add p s ces frozenEmpty = .error .invalidState) ∧
    (∀ src m, copyFrom src m frozenEmpty = .error .invalidState) ∧
    (∀ start last primary step,
      maybeSetPrimaryRange start last primary step frozenEmpty = .error .invalidState) ∧
    (∀ start last primary step,
      setPrimaryRangeAndReturnNext start last primary step frozenEmpty = .error .invalidState) ∧
    build frozenEmpty = .error .invalidState :=
  c6_build_terminal emptyBuilder frozenEmpty emptyData (by rfl)

end ICU
